import Mathlib

/-!
Verification of the routing core of the Kuala Lumpur route-finder web
application (src/app.py). The algorithmic content of the program lives in the
library calls made by the request handler: nearest-node resolution
(ox.distance.nearest_nodes, lines 87-88), shortest-path search
(nx.astar_path, line 92), distance aggregation (nx.path_weight, line 95) and
polyline extraction (the list comprehension on line 106). Those operations are
modelled here from the specification (spec.md sections 4.1-4.3), while the
handler's own control flow (geocode-failure page, uncaught library errors) is
embedded directly from src/app.py. Edge lengths, coordinates and distances are
embedded as rationals.
-/

namespace RouteApp

/-- Error kinds of the routing core (spec.md section 7). -/
inductive RouteErr where
  | invalidNode
  | noPathFound
  | emptyGraph
  | disconnectedPath
  | keyError
  deriving DecidableEq, Repr

/-- Road network graph. Nodes carry (osmid, y latitude, x longitude); directed
edges carry (u, v, length in meters). It mirrors the osmnx MultiDiGraph the
handler consumes read-only (src/app.py line 80): parallel edges are allowed. -/
structure RoadGraph where
  nodes : List (Nat × ℚ × ℚ)
  edges : List (Nat × Nat × ℚ)

def nodeIds (g : RoadGraph) : List Nat := g.nodes.map Prod.fst

/-- Weights of the parallel edges from u to v. -/
def parWeights (g : RoadGraph) (u v : Nat) : List ℚ :=
  g.edges.filterMap (fun e => if e.1 = u ∧ e.2.1 = v then some e.2.2 else none)

/-- Modelled from the spec: the weight_fn of spec.md section 4.2 applied to the
(u, v) connection: the minimum length over the parallel edges from u to v (the
networkx weight handling for multigraphs), none when no edge exists. -/
def wmin (g : RoadGraph) (u v : Nat) : Option ℚ :=
  match parWeights g u v with
  | [] => none
  | w :: ws => some (ws.foldl min w)

def wval (g : RoadGraph) (u v : Nat) : ℚ := (wmin g u v).getD 0

def targetsOf (g : RoadGraph) (u : Nat) : List Nat :=
  (g.edges.filterMap (fun e => if e.1 = u then some e.2.1 else none)).dedup

/-- Outgoing connections of u: each distinct edge target with its weight. -/
def succList (g : RoadGraph) (u : Nat) : List (Nat × ℚ) :=
  (targetsOf g u).filterMap (fun v => (wmin g u v).map (fun w => (v, w)))

/-- All consecutive node pairs are connected by an edge. -/
def chainOk (g : RoadGraph) : List Nat → Bool
  | [] => true
  | [_] => true
  | u :: v :: rest => (wmin g u v).isSome && chainOk g (v :: rest)

/-- Total weight of a node sequence: the sum of wval over consecutive pairs. -/
def pathCost (g : RoadGraph) : List Nat → ℚ
  | [] => 0
  | [_] => 0
  | u :: v :: rest => wval g u v + pathCost g (v :: rest)

/-- Valid Path from a to b (spec.md section 3): nonempty, starts at a, ends at
b, consecutive nodes connected by an edge. -/
def IsPath (g : RoadGraph) (a b : Nat) (p : List Nat) : Prop :=
  p.head? = some a ∧ p.getLast? = some b ∧ chainOk g p = true

instance (g : RoadGraph) (a b : Nat) (p : List Nat) : Decidable (IsPath g a b p) :=
  inferInstanceAs (Decidable (_ ∧ _ ∧ _))

/-- Modelled from the spec: total_distance(graph, path) of spec.md section 4.3
(nx.path_weight, src/app.py line 95): sums, for each consecutive node pair, the
weight of the connecting edge, failing with DisconnectedPath when a required
edge is absent. -/
def path_weight (g : RoadGraph) : List Nat → Except RouteErr ℚ
  | [] => .ok 0
  | [_] => .ok 0
  | u :: v :: rest =>
    match wmin g u v with
    | none => .error .disconnectedPath
    | some w =>
      match path_weight g (v :: rest) with
      | .error e => .error e
      | .ok c => .ok (w + c)

/-- Frontier entry of the search: accumulated cost g(n), node n, and the node
sequence from the origin to n in reverse order (the parent-pointer chain of
spec.md section 4.2, materialised). -/
abbrev Entry : Type := ℚ × Nat × List Nat

/-- Priority of a frontier entry: g(n) + h(n). -/
def keyOf (h : Nat → ℚ) (e : Entry) : ℚ := e.1 + h e.2.1

/-- Remove the first frontier entry of minimal key g(n) + h(n); stable: on ties
the entry discovered first is preferred (spec.md section 4.2 tie-break). -/
def popMin (h : Nat → ℚ) : List Entry → Option (Entry × List Entry)
  | [] => none
  | e :: es =>
    match popMin h es with
    | none => some (e, [])
    | some (m, rest) =>
      if keyOf h e ≤ keyOf h m then some (e, es) else some (m, e :: rest)

/-- Modelled from the spec: the A* main loop of spec.md section 4.2: pop the
frontier entry minimising g(n) + h(n); when the destination is popped, return
the node sequence reconstructed from the entry; skip nodes already explored
(closed-set discipline); otherwise mark the node explored with its settled cost
and relax its outgoing connections. An exhausted frontier means NoPathFound.
The fuel argument bounds the iteration count; startFuel below is proven
sufficient, so the fuel never runs out before the frontier empties. -/
def astarLoop (g : RoadGraph) (h : Nat → ℚ) (dest : Nat) :
    Nat → List (Nat × ℚ) → List Entry → Except RouteErr (List Nat)
  | 0, _, _ => .error .noPathFound
  | fuel + 1, explored, frontier =>
    match popMin h frontier with
    | none => .error .noPathFound
    | some ((c, n, rp), rest) =>
      if n = dest then .ok rp.reverse
      else if (explored.map Prod.fst).contains n then
        astarLoop g h dest fuel explored rest
      else
        astarLoop g h dest fuel ((n, c) :: explored)
          (rest ++ (succList g n).map (fun vw => (c + vw.2, vw.1, vw.1 :: rp)))

/-- Every node identifier mentioned by the graph (as node or edge endpoint). -/
def univFS (g : RoadGraph) : Finset Nat :=
  (g.nodes.map Prod.fst ++ g.edges.map Prod.fst ++
    g.edges.map (fun e => e.2.1)).toFinset

/-- Fuel sufficient for the search: one pop for the initial entry plus one pop
per relaxation ever inserted, plus one. -/
def startFuel (g : RoadGraph) : Nat :=
  2 + Finset.sum (univFS g) (fun u => (succList g u).length)

/-- Modelled from the spec: shortest_path(graph, origin, destination,
weight_fn) of spec.md section 4.2 with heuristic h: InvalidNode when an
endpoint is not a node of the graph, otherwise the A* loop started from the
single origin entry of cost 0. -/
def astar_path (g : RoadGraph) (a b : Nat) (h : Nat → ℚ) : Except RouteErr (List Nat) :=
  if (nodeIds g).contains a && (nodeIds g).contains b then
    astarLoop g h b (startFuel g) [] [(0, a, [a])]
  else .error .invalidNode

/-- The search the handler performs (src/app.py line 92): nx.astar_path is
called with no heuristic argument, so the heuristic is the library default,
the constant zero function. -/
def shortest_path (g : RoadGraph) (a b : Nat) : Except RouteErr (List Nat) :=
  astar_path g a b (fun _ => 0)

/-- Squared planar distance from the query point (qx, qy) to a node (spec.md
section 4.1 admits the planar approximation of great-circle distance). -/
def sqd (qx qy : ℚ) (nd : Nat × ℚ × ℚ) : ℚ :=
  (nd.2.2 - qx) ^ 2 + (nd.2.1 - qy) ^ 2

/-- Modelled from the spec: nearest(coordinate) of spec.md section 4.1, called
as ox.distance.nearest_nodes(G, x, y) at src/app.py lines 87-88: the node whose
coordinate minimises the distance to the query point (the first such node on
ties), EmptyGraph when the graph has no nodes. -/
def nearest_nodes (g : RoadGraph) (qx qy : ℚ) : Except RouteErr Nat :=
  match g.nodes with
  | [] => .error .emptyGraph
  | n0 :: rest =>
    .ok (rest.foldl (fun best nd => if sqd qx qy nd < sqd qx qy best then nd else best) n0).1

/-- Lookup of a node's stored y/x attributes (G.nodes[n] on src/app.py
line 106); none models the KeyError on an absent node. -/
def nodeCoord (g : RoadGraph) (n : Nat) : Option (ℚ × ℚ) :=
  (g.nodes.find? (fun nd => nd.1 == n)).map (fun nd => (nd.2.1, nd.2.2))

/-- Polyline of the route: one (latitude, longitude) pair per node, in path
order (the list comprehension on src/app.py line 106); the whole computation
fails if any node lookup fails, exactly as the comprehension would. -/
def route_coords (g : RoadGraph) : List Nat → Option (List (ℚ × ℚ))
  | [] => some []
  | n :: rest =>
    match nodeCoord g n, route_coords g rest with
    | some cval, some cs => some (cval :: cs)
    | _, _ => none

/-- Geocoding result: latitude and longitude of a resolved location
(smart_geocode, src/app.py lines 17-24, supplies these or None). -/
structure Loc where
  y : ℚ
  x : ℚ

/-- Observable outcome of the /route request handler. -/
inductive RouteOutcome where
  | errorPage
  | resultPage (distanceKm : ℚ) (poly : List (ℚ × ℚ))
  | crash (e : RouteErr)
  deriving DecidableEq, Repr

/-- The /route handler (src/app.py lines 63-128) after the geocoding
collaborator resolved the two place names (locA, locB) and the graph-loading
collaborator produced G. A missing geocode result yields the clean error page
(lines 72-76); every failure after that point is uncaught in the source, so it
crashes the request instead of rendering a page. -/
def route (locA locB : Option Loc) (G : RoadGraph) : RouteOutcome :=
  match locA, locB with
  | none, _ => .errorPage
  | some _, none => .errorPage
  | some la, some lb =>
    match nearest_nodes G la.x la.y with
    | .error e => .crash e
    | .ok orig =>
      match nearest_nodes G lb.x lb.y with
      | .error e => .crash e
      | .ok dst =>
        match shortest_path G orig dst with
        | .error e => .crash e
        | .ok r =>
          match path_weight G r with
          | .error e => .crash e
          | .ok m =>
            match route_coords G r with
            | none => .crash .keyError
            | some cs => .resultPage (m / 1000) cs

/-- Test graph of the spec.md section 8 scenario: A=1 at (0,0), B=2 at (0,1),
C=3 at (1,1), D=4 at (1,0); edges A→B length 100, B→C length 100, A→D length
300, D→C length 50. -/
def demoG : RoadGraph where
  nodes := [(1, 0, 0), (2, 0, 1), (3, 1, 1), (4, 1, 0)]
  edges := [(1, 2, 100), (2, 3, 100), (1, 4, 300), (4, 3, 50)]

/-! ## Non-negative weights (data-model invariant of spec.md section 3) -/

/-- Every edge length is non-negative (spec.md section 3: length in meters,
non-negative). -/
def NonnegW (g : RoadGraph) : Prop := ∀ e ∈ g.edges, 0 ≤ e.2.2

/-- Node components of the explored (closed) set. -/
def Xnodes (X : List (Nat × ℚ)) : List Nat := X.map Prod.fst

/-- Loop invariant of the search from origin a towards dest, with explored set
X and frontier F: every frontier entry records a real path and its cost; every
explored node records the cost of a real path and that cost is optimal; every
relaxation of an explored node is dominated by the explored set or by a
frontier entry; the origin is explored at cost at most 0 or waiting in the
frontier at cost at most 0; the destination is never explored; and all
frontier nodes are mentioned by the graph. -/
structure Inv (g : RoadGraph) (a dest : Nat) (X : List (Nat × ℚ))
    (F : List Entry) : Prop where
  entry_path : ∀ c n rp, (c, n, rp) ∈ F →
    IsPath g a n rp.reverse ∧ pathCost g rp.reverse = c
  explored_path : ∀ u cu, (u, cu) ∈ X → ∃ p, IsPath g a u p ∧ pathCost g p = cu
  explored_opt : ∀ u cu, (u, cu) ∈ X → ∀ q, IsPath g a u q → cu ≤ pathCost g q
  relaxed : ∀ u cu, (u, cu) ∈ X → ∀ v w, (v, w) ∈ succList g u →
    (∃ cv, (v, cv) ∈ X ∧ cv ≤ cu + w) ∨ (∃ c rp, (c, v, rp) ∈ F ∧ c ≤ cu + w)
  root : (∃ ca, (a, ca) ∈ X ∧ ca ≤ 0) ∨ (∃ c rp, (c, a, rp) ∈ F ∧ c ≤ 0)
  dest_free : ∀ cd, (dest, cd) ∉ X
  in_univ : ∀ c n rp, (c, n, rp) ∈ F → n ∈ univFS g

/-- Potential of a search state: pending frontier entries plus the relaxations
the unexplored graph nodes can still inject. Every loop step decreases it. -/
def phi (g : RoadGraph) (X : List (Nat × ℚ)) (F : List Entry) : Nat :=
  F.length + Finset.sum (univFS g \ (Xnodes X).toFinset)
    (fun u => (succList g u).length)

/-! ## Concrete test graphs -/

/-- Tie graph exposing the expansion policy: nodes S=1 at (y 0, x 0),
X=2 at (y 8, x 6), Y=3 at (y 4, x 0), T=4 at (y 8, x 0); edges S→X, S→Y,
X→T, Y→T, each of length 10, so the two routes S→X→T and S→Y→T both cost 20. -/
def tieG : RoadGraph where
  nodes := [(1, 0, 0), (2, 8, 6), (3, 4, 0), (4, 8, 0)]
  edges := [(1, 2, 10), (1, 3, 10), (2, 4, 10), (3, 4, 10)]

/-- Straight-line (Euclidean) distance from each node of tieG to the
destination node 4 at (y 8, x 0). Every value is exact because every node sits
at a Pythagorean position: 8, 6, 4 and 0 are the Euclidean distances of nodes
1, 2, 3 and 4 to node 4 (certified against sqd in claim C4's counterexample). -/
def hGeoTie : Nat → ℚ := fun n =>
  if n = 1 then 8 else if n = 2 then 6 else if n = 3 then 4 else 0

/-- Two isolated nodes: node 2 is unreachable from node 1. -/
def discG : RoadGraph where
  nodes := [(1, 0, 0), (2, 10, 10)]
  edges := []

/-- Two distinct nodes sharing one coordinate. -/
def dupG : RoadGraph where
  nodes := [(1, 5, 5), (2, 5, 5)]
  edges := []

/-- The empty graph. -/
def emptyG : RoadGraph where
  nodes := []
  edges := []

/-! ## Weight and path-cost lemmas -/

theorem minFold_mem (ws : List ℚ) (w : ℚ) : ws.foldl min w ∈ w :: ws := by
  induction ws generalizing w with
  | nil => simp
  | cons x xs ih =>
    rw [List.foldl_cons]
    rcases List.mem_cons.mp (ih (min w x)) with h1 | h1
    · rw [h1]
      rcases min_choice w x with h2 | h2 <;> rw [h2] <;> simp
    · simp [h1]

theorem parWeights_mem (g : RoadGraph) (u v : Nat) (w : ℚ)
    (hm : w ∈ parWeights g u v) : ∃ e ∈ g.edges, e.1 = u ∧ e.2.1 = v ∧ e.2.2 = w := by
  rcases List.mem_filterMap.mp hm with ⟨e, he, hcond⟩
  by_cases hc : e.1 = u ∧ e.2.1 = v
  · refine ⟨e, he, hc.1, hc.2, ?_⟩
    rw [if_pos hc] at hcond
    exact Option.some.inj hcond
  · rw [if_neg hc] at hcond
    exact absurd hcond (by simp)

theorem wmin_mem (g : RoadGraph) (u v : Nat) (w : ℚ) (hm : wmin g u v = some w) :
    w ∈ parWeights g u v := by
  unfold wmin at hm
  rcases hpw : parWeights g u v with _ | ⟨w0, ws⟩ <;> rw [hpw] at hm
  · exact absurd hm (by simp)
  · have hm2 : ws.foldl min w0 = w := Option.some.inj hm
    rw [← hm2]
    exact minFold_mem ws w0

theorem wmin_nonneg (g : RoadGraph) (hw : NonnegW g) (u v : Nat) (w : ℚ)
    (hm : wmin g u v = some w) : 0 ≤ w := by
  rcases parWeights_mem g u v w (wmin_mem g u v w hm) with ⟨e, he, _, _, hew⟩
  rw [← hew]
  exact hw e he

theorem wval_nonneg (g : RoadGraph) (hw : NonnegW g) (u v : Nat) : 0 ≤ wval g u v := by
  unfold wval
  rcases hm : wmin g u v with _ | w
  · simp
  · simpa using wmin_nonneg g hw u v w hm

theorem wval_eq_of_wmin (g : RoadGraph) (u v : Nat) (w : ℚ) (hm : wmin g u v = some w) :
    wval g u v = w := by
  simp [wval, hm]

theorem pathCost_nonneg (g : RoadGraph) (hw : NonnegW g) :
    ∀ p : List Nat, 0 ≤ pathCost g p := by
  intro p
  induction p with
  | nil => simp [pathCost]
  | cons u rest ih =>
    cases rest with
    | nil => simp [pathCost]
    | cons v rest2 =>
      have h1 := wval_nonneg g hw u v
      simp only [pathCost]
      positivity

theorem chainOk_snoc (g : RoadGraph) :
    ∀ (q : List Nat) (y v : Nat), q.getLast? = some y →
      chainOk g (q ++ [v]) = (chainOk g q && (wmin g y v).isSome) := by
  intro q
  induction q with
  | nil => intro y v hy; exact absurd hy (by simp)
  | cons u rest ih =>
    intro y v hy
    cases rest with
    | nil =>
      simp only [List.getLast?_singleton] at hy
      rw [Option.some.inj hy]
      simp [chainOk, Bool.and_comm]
    | cons s t =>
      have hy2 : (s :: t).getLast? = some y := by
        simpa [List.getLast?_cons_cons] using hy
      have ih2 := ih y v hy2
      show ((wmin g u s).isSome && chainOk g ((s :: t) ++ [v])) =
        (((wmin g u s).isSome && chainOk g (s :: t)) && (wmin g y v).isSome)
      rw [ih2, Bool.and_assoc]

theorem pathCost_snoc (g : RoadGraph) :
    ∀ (q : List Nat) (y v : Nat), q.getLast? = some y →
      pathCost g (q ++ [v]) = pathCost g q + wval g y v := by
  intro q
  induction q with
  | nil => intro y v hy; exact absurd hy (by simp)
  | cons u rest ih =>
    intro y v hy
    cases rest with
    | nil =>
      simp only [List.getLast?_singleton] at hy
      rw [Option.some.inj hy]
      simp [pathCost]
    | cons s t =>
      have hy2 : (s :: t).getLast? = some y := by
        simpa [List.getLast?_cons_cons] using hy
      have ih2 := ih y v hy2
      show wval g u s + pathCost g ((s :: t) ++ [v]) =
        (wval g u s + pathCost g (s :: t)) + wval g y v
      rw [ih2, add_assoc]

theorem head?_append_singleton (q : List Nat) (v : Nat) (hq : q ≠ []) :
    (q ++ [v]).head? = q.head? := by
  cases q with
  | nil => exact absurd rfl hq
  | cons a t => simp

/-- Extending a valid path by one edge. -/
theorem IsPath.snoc_edge (g : RoadGraph) (a n v : Nat) (p : List Nat) (w : ℚ)
    (hp : IsPath g a n p) (hm : wmin g n v = some w) :
    IsPath g a v (p ++ [v]) ∧ pathCost g (p ++ [v]) = pathCost g p + w := by
  rcases hp with ⟨hhead, hlast, hchain⟩
  have hq : p ≠ [] := by intro h; rw [h] at hhead; exact absurd hhead (by simp)
  refine ⟨⟨?_, ?_, ?_⟩, ?_⟩
  · rw [head?_append_singleton p v hq]; exact hhead
  · exact List.getLast?_concat p
  · rw [chainOk_snoc g p n v hlast, hchain, hm]
    simp
  · rw [pathCost_snoc g p n v hlast, wval_eq_of_wmin g n v w hm]

/-- Decomposing a valid path at its last node. -/
theorem IsPath.unsnoc (g : RoadGraph) (a z v : Nat) (q : List Nat) (hq : q ≠ [])
    (hp : IsPath g a z (q ++ [v])) :
    v = z ∧ ∃ y, q.getLast? = some y ∧ IsPath g a y q ∧
      (wmin g y z).isSome = true ∧ pathCost g (q ++ [z]) = pathCost g q + wval g y z := by
  rcases hp with ⟨hhead, hlast, hchain⟩
  have hvz : v = z := by
    rw [List.getLast?_concat] at hlast
    exact Option.some.inj hlast
  subst hvz
  have hylast : ∃ y, q.getLast? = some y := by
    cases hql : q.getLast? with
    | none =>
      cases q with
      | nil => exact absurd rfl hq
      | cons s t => exact absurd hql (by simp)
    | some y => exact ⟨y, rfl⟩
  rcases hylast with ⟨y, hy⟩
  have hch := chainOk_snoc g q y v hy
  rw [hchain] at hch
  have hchq : chainOk g q = true ∧ (wmin g y v).isSome = true := by
    constructor
    · cases hcq : chainOk g q
      · rw [hcq] at hch; simp at hch
      · rfl
    · cases hiq : (wmin g y v).isSome
      · rw [hiq] at hch; simp at hch
      · rfl
  refine ⟨rfl, y, hy, ⟨?_, hy, hchq.1⟩, hchq.2, pathCost_snoc g q y v hy⟩
  rw [head?_append_singleton q v hq] at hhead
  exact hhead

theorem IsPath.singleton (g : RoadGraph) (a b x : Nat) (hp : IsPath g a b [x]) :
    x = a ∧ x = b := by
  rcases hp with ⟨hhead, hlast, _⟩
  exact ⟨Option.some.inj hhead, Option.some.inj hlast⟩

theorem IsPath.not_nil (g : RoadGraph) (a b : Nat) (hp : IsPath g a b []) : False := by
  rcases hp with ⟨hhead, _, _⟩
  exact absurd hhead (by simp)

theorem IsPath.self (g : RoadGraph) (v : Nat) : IsPath g v v [v] := by
  refine ⟨rfl, rfl, rfl⟩

/-- Agreement of the fallible total-distance with the pure path cost on valid
chains: path_weight sums exactly the wval weights of the consecutive pairs. -/
theorem path_weight_eq_pathCost (g : RoadGraph) :
    ∀ p : List Nat, chainOk g p = true → path_weight g p = .ok (pathCost g p) := by
  intro p
  induction p with
  | nil => intro _; rfl
  | cons u rest ih =>
    intro hchain
    cases rest with
    | nil => rfl
    | cons v rest2 =>
      have hc : (wmin g u v).isSome = true ∧ chainOk g (v :: rest2) = true := by
        simpa [chainOk, Bool.and_eq_true] using hchain
      rcases Option.isSome_iff_exists.mp hc.1 with ⟨w, hw⟩
      have ih2 := ih hc.2
      show (match wmin g u v with
        | none => Except.error RouteErr.disconnectedPath
        | some w =>
          match path_weight g (v :: rest2) with
          | .error e => Except.error e
          | .ok c => Except.ok (w + c)) = _
      rw [hw, ih2]
      show Except.ok (w + pathCost g (v :: rest2)) = _
      rw [show pathCost g (u :: v :: rest2) = wval g u v + pathCost g (v :: rest2) from rfl,
        wval_eq_of_wmin g u v w hw]

/-! ## Frontier extraction lemmas -/

theorem popMin_eq_none (h : Nat → ℚ) (F : List Entry) :
    popMin h F = none ↔ F = [] := by
  cases F with
  | nil => simp [popMin]
  | cons e es =>
    simp only [popMin]
    cases hp : popMin h es with
    | none => simp
    | some pr =>
      rcases pr with ⟨m, rest⟩
      by_cases hk : keyOf h e ≤ keyOf h m <;> simp [hk]

/-- Inversion of popMin on a cons cell whose tail pops some minimum. -/
theorem popMin_cons_some (h : Nat → ℚ) (e : Entry) (es : List Entry) (m m2 : Entry)
    (rest rest2 : List Entry) (hq : popMin h es = some (m2, rest2))
    (hp : popMin h (e :: es) = some (m, rest)) :
    (keyOf h e ≤ keyOf h m2 ∧ m = e ∧ rest = es) ∨
      (¬ keyOf h e ≤ keyOf h m2 ∧ m = m2 ∧ rest = e :: rest2) := by
  simp only [popMin] at hp
  rw [hq] at hp
  have hp2 : (if keyOf h e ≤ keyOf h m2 then (some (e, es) : Option (Entry × List Entry))
      else some (m2, e :: rest2)) = some (m, rest) := hp
  by_cases hk : keyOf h e ≤ keyOf h m2
  · rw [if_pos hk] at hp2
    have h1 := Option.some.inj hp2
    exact Or.inl ⟨hk, (congrArg Prod.fst h1).symm, (congrArg Prod.snd h1).symm⟩
  · rw [if_neg hk] at hp2
    have h1 := Option.some.inj hp2
    exact Or.inr ⟨hk, (congrArg Prod.fst h1).symm, (congrArg Prod.snd h1).symm⟩

/-- Inversion of popMin on a cons cell whose tail is exhausted. -/
theorem popMin_cons_none (h : Nat → ℚ) (e : Entry) (es : List Entry) (m : Entry)
    (rest : List Entry) (hq : popMin h es = none)
    (hp : popMin h (e :: es) = some (m, rest)) : m = e ∧ rest = [] ∧ es = [] := by
  have hes := (popMin_eq_none h es).mp hq
  simp only [popMin] at hp
  rw [hq] at hp
  have hp2 : (some (e, ([] : List Entry)) : Option (Entry × List Entry)) = some (m, rest) := hp
  have h1 := Option.some.inj hp2
  exact ⟨(congrArg Prod.fst h1).symm, (congrArg Prod.snd h1).symm, hes⟩

theorem popMin_mem (h : Nat → ℚ) :
    ∀ (F : List Entry) (m : Entry) (rest : List Entry),
      popMin h F = some (m, rest) → m ∈ F := by
  intro F
  induction F with
  | nil => intro m rest hp; exact absurd hp (by simp [popMin])
  | cons e es ih =>
    intro m rest hp
    cases hq : popMin h es with
    | none =>
      rcases popMin_cons_none h e es m rest hq hp with ⟨hm, _, _⟩
      rw [hm]
      exact List.mem_cons_self e es
    | some pr =>
      rcases pr with ⟨m2, rest2⟩
      rcases popMin_cons_some h e es m m2 rest rest2 hq hp with ⟨_, hm, _⟩ | ⟨_, hm, _⟩
      · rw [hm]
        exact List.mem_cons_self e es
      · rw [hm]
        exact List.mem_cons_of_mem e (ih m2 rest2 hq)

theorem popMin_min (h : Nat → ℚ) :
    ∀ (F : List Entry) (m : Entry) (rest : List Entry),
      popMin h F = some (m, rest) → ∀ x ∈ F, keyOf h m ≤ keyOf h x := by
  intro F
  induction F with
  | nil => intro m rest hp; exact absurd hp (by simp [popMin])
  | cons e es ih =>
    intro m rest hp x hx
    cases hq : popMin h es with
    | none =>
      rcases popMin_cons_none h e es m rest hq hp with ⟨hm, _, hes⟩
      rcases List.mem_cons.mp hx with h1 | h1
      · rw [hm, h1]
      · rw [hes] at h1
        exact absurd h1 (by simp)
    | some pr =>
      rcases pr with ⟨m2, rest2⟩
      rcases popMin_cons_some h e es m m2 rest rest2 hq hp with ⟨hk, hm, _⟩ | ⟨hk, hm, _⟩
      · rcases List.mem_cons.mp hx with h1 | h1
        · rw [hm, h1]
        · rw [hm]
          exact le_trans hk (ih m2 rest2 hq x h1)
      · rcases List.mem_cons.mp hx with h1 | h1
        · rw [hm, h1]
          exact le_of_lt (lt_of_not_le hk)
        · rw [hm]
          exact ih m2 rest2 hq x h1

theorem popMin_cases (h : Nat → ℚ) :
    ∀ (F : List Entry) (m : Entry) (rest : List Entry),
      popMin h F = some (m, rest) → ∀ x ∈ F, x = m ∨ x ∈ rest := by
  intro F
  induction F with
  | nil => intro m rest hp; exact absurd hp (by simp [popMin])
  | cons e es ih =>
    intro m rest hp x hx
    cases hq : popMin h es with
    | none =>
      rcases popMin_cons_none h e es m rest hq hp with ⟨hm, _, hes⟩
      rcases List.mem_cons.mp hx with h1 | h1
      · exact Or.inl (h1.trans hm.symm)
      · rw [hes] at h1
        exact absurd h1 (by simp)
    | some pr =>
      rcases pr with ⟨m2, rest2⟩
      rcases popMin_cons_some h e es m m2 rest rest2 hq hp with ⟨_, hm, hr⟩ | ⟨_, hm, hr⟩
      · rcases List.mem_cons.mp hx with h1 | h1
        · exact Or.inl (h1.trans hm.symm)
        · exact Or.inr (by rw [hr]; exact h1)
      · rcases List.mem_cons.mp hx with h1 | h1
        · exact Or.inr (by rw [hr, h1]; exact List.mem_cons_self e rest2)
        · rcases ih m2 rest2 hq x h1 with h2 | h2
          · exact Or.inl (h2.trans hm.symm)
          · exact Or.inr (by rw [hr]; exact List.mem_cons_of_mem e h2)

theorem popMin_sub (h : Nat → ℚ) :
    ∀ (F : List Entry) (m : Entry) (rest : List Entry),
      popMin h F = some (m, rest) → ∀ x ∈ rest, x ∈ F := by
  intro F
  induction F with
  | nil => intro m rest hp; exact absurd hp (by simp [popMin])
  | cons e es ih =>
    intro m rest hp x hx
    cases hq : popMin h es with
    | none =>
      rcases popMin_cons_none h e es m rest hq hp with ⟨_, hr, _⟩
      rw [hr] at hx
      exact absurd hx (by simp)
    | some pr =>
      rcases pr with ⟨m2, rest2⟩
      rcases popMin_cons_some h e es m m2 rest rest2 hq hp with ⟨_, _, hr⟩ | ⟨_, _, hr⟩
      · rw [hr] at hx
        exact List.mem_cons_of_mem e hx
      · rw [hr] at hx
        rcases List.mem_cons.mp hx with h1 | h1
        · exact h1 ▸ List.mem_cons_self e es
        · exact List.mem_cons_of_mem e (ih m2 rest2 hq x h1)

theorem popMin_length (h : Nat → ℚ) :
    ∀ (F : List Entry) (m : Entry) (rest : List Entry),
      popMin h F = some (m, rest) → F.length = rest.length + 1 := by
  intro F
  induction F with
  | nil => intro m rest hp; exact absurd hp (by simp [popMin])
  | cons e es ih =>
    intro m rest hp
    cases hq : popMin h es with
    | none =>
      rcases popMin_cons_none h e es m rest hq hp with ⟨_, hr, hes⟩
      rw [hr, hes]
      rfl
    | some pr =>
      rcases pr with ⟨m2, rest2⟩
      rcases popMin_cons_some h e es m m2 rest rest2 hq hp with ⟨_, _, hr⟩ | ⟨_, _, hr⟩
      · rw [hr]
        rfl
      · rw [hr]
        simp only [List.length_cons]
        rw [ih m2 rest2 hq]

/-! ## Successor-list lemmas -/

theorem wmin_target (g : RoadGraph) (u v : Nat) (w : ℚ) (hm : wmin g u v = some w) :
    v ∈ targetsOf g u := by
  rcases parWeights_mem g u v w (wmin_mem g u v w hm) with ⟨e, he, heu, hev, _⟩
  unfold targetsOf
  rw [List.mem_dedup]
  exact List.mem_filterMap.mpr ⟨e, he, by rw [if_pos heu, hev]⟩

theorem succList_mem (g : RoadGraph) (u v : Nat) (w : ℚ) :
    (v, w) ∈ succList g u ↔ wmin g u v = some w := by
  constructor
  · intro hm
    rcases List.mem_filterMap.mp hm with ⟨v2, _, hv2⟩
    rcases hw2 : wmin g u v2 with _ | w2 <;> rw [hw2] at hv2
    · exact absurd hv2 (by simp)
    · have : (v2, w2) = (v, w) := Option.some.inj hv2
      have hv : v2 = v := congrArg Prod.fst this
      have hwv : w2 = w := congrArg Prod.snd this
      rw [← hv, hw2, hwv]
  · intro hm
    exact List.mem_filterMap.mpr ⟨v, wmin_target g u v w hm, by rw [hm]; rfl⟩

theorem target_mem_univ (g : RoadGraph) (u v : Nat) (hv : v ∈ targetsOf g u) :
    v ∈ univFS g := by
  unfold targetsOf at hv
  rw [List.mem_dedup] at hv
  rcases List.mem_filterMap.mp hv with ⟨e, he, hcond⟩
  by_cases hc : e.1 = u
  · rw [if_pos hc] at hcond
    have : e.2.1 = v := Option.some.inj hcond
    unfold univFS
    rw [List.mem_toFinset]
    refine List.mem_append.mpr (Or.inr ?_)
    exact List.mem_map.mpr ⟨e, he, this⟩
  · rw [if_neg hc] at hcond
    exact absurd hcond (by simp)

theorem succ_mem_univ (g : RoadGraph) (u v : Nat) (w : ℚ) (hm : (v, w) ∈ succList g u) :
    v ∈ univFS g :=
  target_mem_univ g u v (wmin_target g u v w ((succList_mem g u v w).mp hm))

theorem nodeId_mem_univ (g : RoadGraph) (a : Nat) (ha : a ∈ nodeIds g) :
    a ∈ univFS g := by
  unfold univFS
  rw [List.mem_toFinset]
  exact List.mem_append.mpr (Or.inl (List.mem_append.mpr (Or.inl ha)))

/-! ## Search invariants -/

theorem Xnodes_mem (X : List (Nat × ℚ)) (u : Nat) :
    u ∈ Xnodes X ↔ ∃ cu, (u, cu) ∈ X := by
  constructor
  · intro hu
    rcases List.mem_map.mp hu with ⟨pr, hpr, he⟩
    rcases pr with ⟨u2, cu⟩
    rcases he with rfl
    exact ⟨cu, hpr⟩
  · intro hc
    rcases hc with ⟨cu, hc⟩
    exact List.mem_map.mpr ⟨(u, cu), hc, rfl⟩

/-- Cover lemma: any valid path from the origin to a node outside the closed
set is cost-dominated by some frontier entry. -/
theorem reach_frontier (g : RoadGraph) (a dest : Nat) (X : List (Nat × ℚ))
    (F : List Entry) (hw : NonnegW g) (inv : Inv g a dest X F) :
    ∀ (q : List Nat) (z : Nat), IsPath g a z q → z ∉ Xnodes X →
      ∃ c n rp, (c, n, rp) ∈ F ∧ c ≤ pathCost g q := by
  intro q
  induction q using List.reverseRecOn with
  | nil => intro z hp _; exact absurd hp (fun hh => IsPath.not_nil g a z hh)
  | append_singleton q0 v ih =>
    intro z hp hz
    by_cases hq0 : q0 = []
    · subst hq0
      rcases IsPath.singleton g a z v (by simpa using hp) with ⟨hva, hvz⟩
      rcases inv.root with ⟨ca, hmem, _⟩ | ⟨c, rp, hmem, hc⟩
      · have haz : a = z := hva.symm.trans hvz
        exact absurd ((Xnodes_mem X a).mpr ⟨ca, hmem⟩) (by rw [haz]; exact hz)
      · exact ⟨c, a, rp, hmem, le_trans hc (pathCost_nonneg g hw _)⟩
    · rcases IsPath.unsnoc g a z v q0 hq0 hp with ⟨hvz, y, hy, hq0path, hsome, hcost⟩
      subst hvz
      by_cases hyX : y ∈ Xnodes X
      · rcases (Xnodes_mem X y).mp hyX with ⟨cy, hcy⟩
        have hopt := inv.explored_opt y cy hcy q0 hq0path
        rcases Option.isSome_iff_exists.mp hsome with ⟨w, hwm⟩
        have hsucc := (succList_mem g y v w).mpr hwm
        rcases inv.relaxed y cy hcy v w hsucc with ⟨cv, hvX, _⟩ | ⟨c, rp, hcF, hcle⟩
        · exact absurd ((Xnodes_mem X v).mpr ⟨cv, hvX⟩) hz
        · refine ⟨c, v, rp, hcF, ?_⟩
          rw [hcost, wval_eq_of_wmin g y v w hwm]
          calc c ≤ cy + w := hcle
            _ ≤ pathCost g q0 + w := by linarith
      · rcases ih y hq0path hyX with ⟨c, n, rp, hcF, hcle⟩
        refine ⟨c, n, rp, hcF, ?_⟩
        rw [hcost]
        have hwv := wval_nonneg g hw y v
        linarith

/-- Cut lemma for the zero heuristic: the cost of the popped minimal entry is a
lower bound on the cost of every valid path leaving the closed set. -/
theorem popped_le_paths (g : RoadGraph) (a dest : Nat) (X : List (Nat × ℚ))
    (F : List Entry) (hw : NonnegW g) (inv : Inv g a dest X F)
    (c : ℚ) (n : Nat) (rp : List Nat) (rest : List Entry)
    (hpop : popMin (fun _ => 0) F = some ((c, n, rp), rest)) :
    ∀ (q : List Nat) (z : Nat), IsPath g a z q → z ∉ Xnodes X → c ≤ pathCost g q := by
  intro q z hp hz
  rcases reach_frontier g a dest X F hw inv q z hp hz with ⟨c2, n2, rp2, hmem, hle⟩
  have hmin := popMin_min (fun _ => 0) F (c, n, rp) rest hpop (c2, n2, rp2) hmem
  simp only [keyOf] at hmin
  linarith

/-- The destination is outside the closed set. -/
theorem dest_not_explored (g : RoadGraph) (a dest : Nat) (X : List (Nat × ℚ))
    (F : List Entry) (inv : Inv g a dest X F) : dest ∉ Xnodes X := by
  intro hd
  rcases (Xnodes_mem X dest).mp hd with ⟨cd, hcd⟩
  exact inv.dest_free cd hcd

/-! ## Loop step equations -/

theorem astarLoop_step_none (g : RoadGraph) (h : Nat → ℚ) (dest fuel : Nat)
    (X : List (Nat × ℚ)) (F : List Entry) (hpop : popMin h F = none) :
    astarLoop g h dest (fuel + 1) X F = .error .noPathFound := by
  simp only [astarLoop, hpop]

theorem astarLoop_step_dest (g : RoadGraph) (h : Nat → ℚ) (dest fuel : Nat)
    (X : List (Nat × ℚ)) (F : List Entry) (c : ℚ) (n : Nat) (rp : List Nat)
    (rest : List Entry) (hpop : popMin h F = some ((c, n, rp), rest))
    (hnd : n = dest) :
    astarLoop g h dest (fuel + 1) X F = .ok rp.reverse := by
  simp only [astarLoop, hpop]
  rw [if_pos hnd]

theorem astarLoop_step_skip (g : RoadGraph) (h : Nat → ℚ) (dest fuel : Nat)
    (X : List (Nat × ℚ)) (F : List Entry) (c : ℚ) (n : Nat) (rp : List Nat)
    (rest : List Entry) (hpop : popMin h F = some ((c, n, rp), rest))
    (hnd : ¬ n = dest) (hn : (X.map Prod.fst).contains n = true) :
    astarLoop g h dest (fuel + 1) X F = astarLoop g h dest fuel X rest := by
  simp only [astarLoop, hpop]
  rw [if_neg hnd, if_pos hn]

theorem astarLoop_step_expand (g : RoadGraph) (h : Nat → ℚ) (dest fuel : Nat)
    (X : List (Nat × ℚ)) (F : List Entry) (c : ℚ) (n : Nat) (rp : List Nat)
    (rest : List Entry) (hpop : popMin h F = some ((c, n, rp), rest))
    (hnd : ¬ n = dest) (hn : (X.map Prod.fst).contains n = false) :
    astarLoop g h dest (fuel + 1) X F = astarLoop g h dest fuel ((n, c) :: X)
      (rest ++ (succList g n).map (fun vw => (c + vw.2, vw.1, vw.1 :: rp))) := by
  simp only [astarLoop, hpop]
  rw [if_neg hnd, if_neg (by rw [hn]; exact Bool.false_ne_true)]

theorem contains_iff_mem_Xnodes (X : List (Nat × ℚ)) (n : Nat) :
    (X.map Prod.fst).contains n = true ↔ n ∈ Xnodes X := by
  unfold Xnodes
  exact List.elem_iff

/-! ## Invariant preservation -/

/-- Skipping an already-explored popped entry preserves the invariant. -/
theorem Inv.discard (g : RoadGraph) (a dest : Nat) (X : List (Nat × ℚ))
    (F : List Entry) (inv : Inv g a dest X F) (h : Nat → ℚ) (c : ℚ) (n : Nat)
    (rp : List Nat) (rest : List Entry)
    (hpop : popMin h F = some ((c, n, rp), rest)) (hn : n ∈ Xnodes X) :
    Inv g a dest X rest := by
  have hsub := popMin_sub h F (c, n, rp) rest hpop
  have hmem := popMin_mem h F (c, n, rp) rest hpop
  have hcases := popMin_cases h F (c, n, rp) rest hpop
  have hpoppath := inv.entry_path c n rp hmem
  refine ⟨?_, inv.explored_path, inv.explored_opt, ?_, ?_, inv.dest_free, ?_⟩
  · intro c2 n2 rp2 hm
    exact inv.entry_path c2 n2 rp2 (hsub _ hm)
  · intro u cu hcu v w hsucc
    rcases inv.relaxed u cu hcu v w hsucc with hleft | ⟨c2, rp2, hmF, hle⟩
    · exact Or.inl hleft
    · rcases hcases (c2, v, rp2) hmF with heq | hrest
      · have hvn : v = n := congrArg (fun e => e.2.1) heq
        have hc2 : c2 = c := congrArg Prod.fst heq
        rcases (Xnodes_mem X n).mp hn with ⟨cv, hcv⟩
        refine Or.inl ⟨cv, by rw [hvn]; exact hcv, ?_⟩
        have hopt := inv.explored_opt n cv hcv rp.reverse hpoppath.1
        rw [hpoppath.2] at hopt
        rw [hc2] at hle
        linarith
      · exact Or.inr ⟨c2, rp2, hrest, hle⟩
  · rcases inv.root with hleft | ⟨c2, rp2, hmF, hle⟩
    · exact Or.inl hleft
    · rcases hcases (c2, a, rp2) hmF with heq | hrest
      · have han : a = n := congrArg (fun e => e.2.1) heq
        have hc2 : c2 = c := congrArg Prod.fst heq
        rcases (Xnodes_mem X n).mp hn with ⟨ca, hca⟩
        refine Or.inl ⟨ca, by rw [han]; exact hca, ?_⟩
        have hopt := inv.explored_opt n ca hca rp.reverse hpoppath.1
        rw [hpoppath.2] at hopt
        rw [hc2] at hle
        linarith
      · exact Or.inr ⟨c2, rp2, hrest, hle⟩
  · intro c2 n2 rp2 hm
    exact inv.in_univ c2 n2 rp2 (hsub _ hm)

/-- Expanding a fresh popped entry preserves the invariant (zero heuristic:
the popped cost is settled as optimal by the cut lemma). -/
theorem Inv.expand (g : RoadGraph) (a dest : Nat) (X : List (Nat × ℚ))
    (F : List Entry) (hw : NonnegW g) (inv : Inv g a dest X F) (c : ℚ) (n : Nat)
    (rp : List Nat) (rest : List Entry)
    (hpop : popMin (fun _ => 0) F = some ((c, n, rp), rest))
    (hn : n ∉ Xnodes X) (hnd : ¬ n = dest) :
    Inv g a dest ((n, c) :: X)
      (rest ++ (succList g n).map (fun vw => (c + vw.2, vw.1, vw.1 :: rp))) := by
  have hsub := popMin_sub _ F (c, n, rp) rest hpop
  have hmem := popMin_mem _ F (c, n, rp) rest hpop
  have hcases := popMin_cases _ F (c, n, rp) rest hpop
  have hpoppath := inv.entry_path c n rp hmem
  have hnopt : ∀ q, IsPath g a n q → c ≤ pathCost g q :=
    fun q hq => popped_le_paths g a dest X F hw inv c n rp rest hpop q n hq hn
  have hnewmem : ∀ c2 n2 rp2,
      (c2, n2, rp2) ∈ rest ++
          (succList g n).map (fun vw => (c + vw.2, vw.1, vw.1 :: rp)) ↔
        (c2, n2, rp2) ∈ rest ∨
          ∃ w, (n2, w) ∈ succList g n ∧ c2 = c + w ∧ rp2 = n2 :: rp := by
    intro c2 n2 rp2
    rw [List.mem_append, List.mem_map]
    constructor
    · rintro (hr | ⟨vw, hvw, he⟩)
      · exact Or.inl hr
      · rcases vw with ⟨v, w⟩
        have h1 : c + w = c2 := congrArg Prod.fst he
        have h2 : v = n2 := congrArg (fun x => x.2.1) he
        have h3 : v :: rp = rp2 := congrArg (fun x => x.2.2) he
        subst h2
        exact Or.inr ⟨w, hvw, h1.symm, h3.symm⟩
    · rintro (hr | ⟨w, hvw, hc2, hrp2⟩)
      · exact Or.inl hr
      · exact Or.inr ⟨(n2, w), hvw, by rw [hc2, hrp2]⟩
  refine ⟨?_, ?_, ?_, ?_, ?_, ?_, ?_⟩
  · intro c2 n2 rp2 hm
    rcases (hnewmem c2 n2 rp2).mp hm with hr | ⟨w, hvw, hc2, hrp2⟩
    · exact inv.entry_path c2 n2 rp2 (hsub _ hr)
    · have hwm := (succList_mem g n n2 w).mp hvw
      have hext := IsPath.snoc_edge g a n n2 rp.reverse w hpoppath.1 hwm
      constructor
      · rw [hrp2, List.reverse_cons]
        exact hext.1
      · rw [hrp2, List.reverse_cons, hext.2, hpoppath.2, hc2]
  · intro u cu hcu
    rcases List.mem_cons.mp hcu with heq | hX
    · have hu : u = n := congrArg Prod.fst heq
      have hc : cu = c := congrArg Prod.snd heq
      rw [hu, hc]
      exact ⟨rp.reverse, hpoppath.1, hpoppath.2⟩
    · exact inv.explored_path u cu hX
  · intro u cu hcu q hq
    rcases List.mem_cons.mp hcu with heq | hX
    · have hu : u = n := congrArg Prod.fst heq
      have hc : cu = c := congrArg Prod.snd heq
      rw [hc]
      exact hnopt q (hu ▸ hq)
    · exact inv.explored_opt u cu hX q hq
  · intro u cu hcu v w hsucc
    rcases List.mem_cons.mp hcu with heq | hX
    · have hu : u = n := congrArg Prod.fst heq
      have hc : cu = c := congrArg Prod.snd heq
      refine Or.inr ⟨c + w, v :: rp, ?_, by rw [hc]⟩
      exact (hnewmem (c + w) v (v :: rp)).mpr (Or.inr ⟨w, hu ▸ hsucc, rfl, rfl⟩)
    · rcases inv.relaxed u cu hX v w hsucc with ⟨cv, hvX, hle⟩ | ⟨c2, rp2, hmF, hle⟩
      · exact Or.inl ⟨cv, List.mem_cons_of_mem _ hvX, hle⟩
      · rcases hcases (c2, v, rp2) hmF with heq2 | hrest
        · have hvn : v = n := congrArg (fun x => x.2.1) heq2
          have hcc : c2 = c := congrArg Prod.fst heq2
          refine Or.inl ⟨c, by rw [hvn]; exact List.mem_cons_self _ _, ?_⟩
          rw [← hcc]; exact hle
        · exact Or.inr ⟨c2, rp2, (hnewmem c2 v rp2).mpr (Or.inl hrest), hle⟩
  · rcases inv.root with ⟨ca, hX, hle⟩ | ⟨c2, rp2, hmF, hle⟩
    · exact Or.inl ⟨ca, List.mem_cons_of_mem _ hX, hle⟩
    · rcases hcases (c2, a, rp2) hmF with heq2 | hrest
      · have han : a = n := congrArg (fun x => x.2.1) heq2
        have hcc : c2 = c := congrArg Prod.fst heq2
        refine Or.inl ⟨c, ?_, by rw [← hcc]; exact hle⟩
        rw [han]; exact List.mem_cons_self _ _
      · exact Or.inr ⟨c2, rp2, (hnewmem c2 a rp2).mpr (Or.inl hrest), hle⟩
  · intro cd hcd
    rcases List.mem_cons.mp hcd with heq | hX
    · have hdn : dest = n := congrArg Prod.fst heq
      exact hnd hdn.symm
    · exact inv.dest_free cd hX
  · intro c2 n2 rp2 hm
    rcases (hnewmem c2 n2 rp2).mp hm with hr | ⟨w, hvw, _, _⟩
    · exact inv.in_univ c2 n2 rp2 (hsub _ hr)
    · exact succ_mem_univ g n n2 w hvw

/-! ## Termination potential -/

theorem phi_skip (g : RoadGraph) (h : Nat → ℚ) (X : List (Nat × ℚ))
    (F : List Entry) (m : Entry) (rest : List Entry)
    (hpop : popMin h F = some (m, rest)) : phi g X F = phi g X rest + 1 := by
  unfold phi
  rw [popMin_length h F m rest hpop]
  omega

theorem phi_expand (g : RoadGraph) (h : Nat → ℚ) (X : List (Nat × ℚ))
    (F : List Entry) (c : ℚ) (n : Nat) (rp : List Nat) (rest : List Entry)
    (hpop : popMin h F = some ((c, n, rp), rest))
    (hnu : n ∈ univFS g) (hn : n ∉ Xnodes X) :
    phi g X F = phi g ((n, c) :: X)
      (rest ++ (succList g n).map (fun vw => (c + vw.2, vw.1, vw.1 :: rp))) + 1 := by
  unfold phi
  have hlen : (rest ++ (succList g n).map
      (fun vw => (c + vw.2, vw.1, vw.1 :: rp))).length =
      rest.length + (succList g n).length := by
    simp
  have hXn : Xnodes ((n, c) :: X) = n :: Xnodes X := rfl
  rw [hlen, hXn]
  have hset : (n :: Xnodes X).toFinset = insert n (Xnodes X).toFinset := by
    simp
  rw [hset, Finset.sdiff_insert]
  have hmem : n ∈ univFS g \ (Xnodes X).toFinset :=
    Finset.mem_sdiff.mpr ⟨hnu, by simpa using hn⟩
  have hsum : Finset.sum ((univFS g \ (Xnodes X).toFinset).erase n)
        (fun u => (succList g u).length) + (succList g n).length =
      Finset.sum (univFS g \ (Xnodes X).toFinset)
        (fun u => (succList g u).length) :=
    Finset.sum_erase_add (univFS g \ (Xnodes X).toFinset)
      (fun u => (succList g u).length) hmem
  rw [popMin_length h F (c, n, rp) rest hpop]
  omega

/-! ## Main loop correctness -/

/-- Soundness, optimality and completeness of the zero-heuristic loop: an ok
result is a valid optimal path, and a valid path existing guarantees an ok
result. -/
theorem astarLoop_master (g : RoadGraph) (a dest : Nat) (hw : NonnegW g) :
    ∀ (fuel : Nat) (X : List (Nat × ℚ)) (F : List Entry),
      Inv g a dest X F → phi g X F < fuel →
      (∀ p, astarLoop g (fun _ => 0) dest fuel X F = .ok p →
        IsPath g a dest p ∧ ∀ q, IsPath g a dest q → pathCost g p ≤ pathCost g q) ∧
      ((∃ q, IsPath g a dest q) →
        ∃ p, astarLoop g (fun _ => 0) dest fuel X F = .ok p) := by
  intro fuel
  induction fuel with
  | zero => intro X F _ hphi; exact absurd hphi (Nat.not_lt_zero _)
  | succ fuel ih =>
    intro X F inv hphi
    cases hpop : popMin (fun _ => 0) F with
    | none =>
      have hstep := astarLoop_step_none g (fun _ => 0) dest fuel X F hpop
      constructor
      · intro p hp
        rw [hstep] at hp
        exact absurd hp (by simp)
      · rintro ⟨q, hq⟩
        have hF : F = [] := (popMin_eq_none _ F).mp hpop
        have hd := dest_not_explored g a dest X F inv
        rcases reach_frontier g a dest X F hw inv q dest hq hd with ⟨c, n, rp, hm, _⟩
        rw [hF] at hm
        exact absurd hm (by simp)
    | some pr =>
      rcases pr with ⟨⟨c, n, rp⟩, rest⟩
      by_cases hnd : n = dest
      · have hstep := astarLoop_step_dest g (fun _ => 0) dest fuel X F c n rp rest hpop hnd
        have hpoppath := inv.entry_path c n rp (popMin_mem _ F _ _ hpop)
        constructor
        · intro p hp
          rw [hstep] at hp
          have hpe : rp.reverse = p := Except.ok.inj hp
          have hd := dest_not_explored g a dest X F inv
          constructor
          · rw [← hpe, ← hnd]
            exact hpoppath.1
          · intro q hq
            have hcq := popped_le_paths g a dest X F hw inv c n rp rest hpop q dest hq hd
            rw [← hpe, hpoppath.2]
            exact hcq
        · intro _
          exact ⟨rp.reverse, hstep⟩
      · by_cases hnX : n ∈ Xnodes X
        · have hcont : (X.map Prod.fst).contains n = true :=
            (contains_iff_mem_Xnodes X n).mpr hnX
          have hstep := astarLoop_step_skip g (fun _ => 0) dest fuel X F c n rp rest
            hpop hnd hcont
          have hinv2 := Inv.discard g a dest X F inv (fun _ => 0) c n rp rest hpop hnX
          have hphi2 : phi g X rest < fuel := by
            have heq := phi_skip g (fun _ => 0) X F (c, n, rp) rest hpop
            omega
          rw [hstep]
          exact ih X rest hinv2 hphi2
        · have hcont : (X.map Prod.fst).contains n = false := by
            cases hcv : (X.map Prod.fst).contains n
            · rfl
            · exact absurd ((contains_iff_mem_Xnodes X n).mp hcv) hnX
          have hstep := astarLoop_step_expand g (fun _ => 0) dest fuel X F c n rp rest
            hpop hnd hcont
          have hinv2 := Inv.expand g a dest X F hw inv c n rp rest hpop hnX hnd
          have hnu : n ∈ univFS g := inv.in_univ c n rp (popMin_mem _ F _ _ hpop)
          have hphi2 : phi g ((n, c) :: X)
              (rest ++ (succList g n).map (fun vw => (c + vw.2, vw.1, vw.1 :: rp))) < fuel := by
            have heq := phi_expand g (fun _ => 0) X F c n rp rest hpop hnu hnX
            omega
          rw [hstep]
          exact ih _ _ hinv2 hphi2

/-- The loop exits either with a path or with NoPathFound. -/
theorem astarLoop_exits (g : RoadGraph) (h : Nat → ℚ) (dest : Nat) :
    ∀ (fuel : Nat) (X : List (Nat × ℚ)) (F : List Entry),
      (∃ p, astarLoop g h dest fuel X F = .ok p) ∨
        astarLoop g h dest fuel X F = .error .noPathFound := by
  intro fuel
  induction fuel with
  | zero => intro X F; exact Or.inr rfl
  | succ fuel ih =>
    intro X F
    cases hpop : popMin h F with
    | none => exact Or.inr (astarLoop_step_none g h dest fuel X F hpop)
    | some pr =>
      rcases pr with ⟨⟨c, n, rp⟩, rest⟩
      by_cases hnd : n = dest
      · exact Or.inl ⟨rp.reverse, astarLoop_step_dest g h dest fuel X F c n rp rest hpop hnd⟩
      · cases hcont : (X.map Prod.fst).contains n
        · rw [astarLoop_step_expand g h dest fuel X F c n rp rest hpop hnd hcont]
          exact ih _ _
        · rw [astarLoop_step_skip g h dest fuel X F c n rp rest hpop hnd hcont]
          exact ih _ _

/-- The initial state of the search satisfies the invariant. -/
theorem Inv.initial (g : RoadGraph) (a dest : Nat) (ha : a ∈ nodeIds g) :
    Inv g a dest [] [((0 : ℚ), a, [a])] := by
  refine ⟨?_, ?_, ?_, ?_, ?_, ?_, ?_⟩
  · intro c n rp hm
    have heq : ((c : ℚ), n, rp) = ((0 : ℚ), a, [a]) := List.mem_singleton.mp hm
    have hc : c = 0 := congrArg Prod.fst heq
    have hn : n = a := congrArg (fun x => x.2.1) heq
    have hrp : rp = [a] := congrArg (fun x => x.2.2) heq
    rw [hc, hn, hrp]
    exact ⟨IsPath.self g a, rfl⟩
  · intro u cu hm; exact absurd hm (by simp)
  · intro u cu hm; exact absurd hm (by simp)
  · intro u cu hm; exact absurd hm (by simp)
  · exact Or.inr ⟨0, [a], List.mem_singleton.mpr rfl, le_refl 0⟩
  · intro cd hm; exact absurd hm (by simp)
  · intro c n rp hm
    have heq : ((c : ℚ), n, rp) = ((0 : ℚ), a, [a]) := List.mem_singleton.mp hm
    have hn : n = a := congrArg (fun x => x.2.1) heq
    rw [hn]
    exact nodeId_mem_univ g a ha

/-- The chosen fuel strictly dominates the initial potential. -/
theorem phi_initial_lt (g : RoadGraph) (a : Nat) :
    phi g [] [((0 : ℚ), a, [a])] < startFuel g := by
  unfold phi startFuel
  have hXe : (Xnodes ([] : List (Nat × ℚ))).toFinset = (∅ : Finset Nat) := rfl
  rw [hXe, Finset.sdiff_empty]
  simp only [List.length_singleton]
  omega

/-- Unfolding shortest_path on valid endpoints. -/
theorem shortest_path_unfold (g : RoadGraph) (a b : Nat)
    (ha : a ∈ nodeIds g) (hb : b ∈ nodeIds g) :
    shortest_path g a b =
      astarLoop g (fun _ => 0) b (startFuel g) [] [((0 : ℚ), a, [a])] := by
  unfold shortest_path astar_path
  rw [if_pos (Bool.and_eq_true_iff.mpr ⟨List.elem_iff.mpr ha, List.elem_iff.mpr hb⟩)]

/-- Combined correctness of the search the handler performs: an ok result is a
valid optimal path; a valid path existing guarantees an ok result. -/
theorem shortest_path_correct (g : RoadGraph) (a b : Nat) (hw : NonnegW g)
    (ha : a ∈ nodeIds g) (hb : b ∈ nodeIds g) :
    (∀ p, shortest_path g a b = .ok p →
      IsPath g a b p ∧ ∀ q, IsPath g a b q → pathCost g p ≤ pathCost g q) ∧
    ((∃ q, IsPath g a b q) → ∃ p, shortest_path g a b = .ok p) := by
  rw [shortest_path_unfold g a b ha hb]
  exact astarLoop_master g a b hw (startFuel g) [] [((0 : ℚ), a, [a])]
    (Inv.initial g a b ha) (phi_initial_lt g a)

/-- On valid endpoints with no connecting path, the search reports
NoPathFound. -/
theorem shortest_path_noPath (g : RoadGraph) (a b : Nat) (hw : NonnegW g)
    (ha : a ∈ nodeIds g) (hb : b ∈ nodeIds g)
    (hno : ∀ q, ¬ IsPath g a b q) :
    shortest_path g a b = .error .noPathFound := by
  rw [shortest_path_unfold g a b ha hb]
  rcases astarLoop_exits g (fun _ => 0) b (startFuel g) [] [((0 : ℚ), a, [a])] with
    ⟨p, hp⟩ | herr
  · have hm := (astarLoop_master g a b hw (startFuel g) [] [((0 : ℚ), a, [a])]
      (Inv.initial g a b ha) (phi_initial_lt g a)).1 p hp
    exact absurd hm.1 (hno p)
  · exact herr

/-- Querying origin = destination succeeds immediately with the one-node path:
the single initial frontier entry is popped and it is the destination. -/
theorem shortest_path_self (g : RoadGraph) (v : Nat) (hv : v ∈ nodeIds g) :
    shortest_path g v v = .ok [v] := by
  rw [shortest_path_unfold g v v hv hv]
  have hpos : ∃ k, startFuel g = k + 1 := ⟨startFuel g - 1, by unfold startFuel; omega⟩
  rcases hpos with ⟨k, hk⟩
  rw [hk]
  rw [astarLoop_step_dest g (fun _ => 0) v k [] [((0 : ℚ), v, [v])] 0 v [v] [] rfl rfl]
  rw [List.reverse_singleton]

/-! ## Polyline lemmas -/

theorem route_coords_forall2 (g : RoadGraph) :
    ∀ (p : List Nat) (cs : List (ℚ × ℚ)), route_coords g p = some cs →
      List.Forall₂ (fun n cval => nodeCoord g n = some cval) p cs := by
  intro p
  induction p with
  | nil =>
    intro cs hcs
    have h0 : ([] : List (ℚ × ℚ)) = cs :=
      Option.some.inj (hcs : (some [] : Option (List (ℚ × ℚ))) = some cs)
    rw [← h0]
    exact List.Forall₂.nil
  | cons n rest ih =>
    intro cs hcs
    rcases hnc : nodeCoord g n with _ | cval <;>
      rcases hrc : route_coords g rest with _ | cs0 <;>
        simp only [route_coords, hnc, hrc] at hcs
    · exact absurd hcs (by simp)
    · exact absurd hcs (by simp)
    · exact absurd hcs (by simp)
    · rw [← Option.some.inj hcs]
      exact List.Forall₂.cons hnc (ih cs0 hrc)

theorem route_coords_length (g : RoadGraph) (p : List Nat) (cs : List (ℚ × ℚ))
    (hcs : route_coords g p = some cs) : cs.length = p.length :=
  (List.Forall₂.length_eq (route_coords_forall2 g p cs hcs)).symm

/-- The polyline only depends on the stored coordinates of the path's nodes. -/
theorem route_coords_congr (g g2 : RoadGraph) :
    ∀ p : List Nat, (∀ n ∈ p, nodeCoord g2 n = nodeCoord g n) →
      route_coords g2 p = route_coords g p := by
  intro p
  induction p with
  | nil => intro _; rfl
  | cons n rest ih =>
    intro hco
    have h1 : nodeCoord g2 n = nodeCoord g n := hco n (List.mem_cons_self n rest)
    have h2 := ih (fun m hm => hco m (List.mem_cons_of_mem n hm))
    show (match nodeCoord g2 n, route_coords g2 rest with
      | some cval, some cs => some (cval :: cs)
      | _, _ => none) =
      (match nodeCoord g n, route_coords g rest with
      | some cval, some cs => some (cval :: cs)
      | _, _ => none)
    rw [h1, h2]

/-! ## Nearest-node lemmas -/

theorem foldl_argmin_mem (qx qy : ℚ) :
    ∀ (rest : List (Nat × ℚ × ℚ)) (n0 : Nat × ℚ × ℚ),
      rest.foldl (fun best nd => if sqd qx qy nd < sqd qx qy best then nd else best) n0 ∈
        n0 :: rest := by
  intro rest
  induction rest with
  | nil => intro n0; simp
  | cons x xs ih =>
    intro n0
    rw [List.foldl_cons]
    rcases List.mem_cons.mp (ih (if sqd qx qy x < sqd qx qy n0 then x else n0)) with h1 | h1
    · rw [h1]
      by_cases hc : sqd qx qy x < sqd qx qy n0
      · rw [if_pos hc]
        exact List.mem_cons_of_mem _ (List.mem_cons_self _ _)
      · rw [if_neg hc]
        exact List.mem_cons_self _ _
    · exact List.mem_cons_of_mem _ (List.mem_cons_of_mem _ h1)

theorem foldl_argmin_le (qx qy : ℚ) :
    ∀ (rest : List (Nat × ℚ × ℚ)) (n0 x : Nat × ℚ × ℚ), x ∈ n0 :: rest →
      sqd qx qy (rest.foldl
        (fun best nd => if sqd qx qy nd < sqd qx qy best then nd else best) n0) ≤
        sqd qx qy x := by
  intro rest
  induction rest with
  | nil =>
    intro n0 x hx
    rcases List.mem_cons.mp hx with h1 | h1
    · rw [h1, List.foldl_nil]
    · exact absurd h1 (by simp)
  | cons yel ys ih =>
    intro n0 x hx
    rw [List.foldl_cons]
    set b := if sqd qx qy yel < sqd qx qy n0 then yel else n0 with hb
    have hbn0 : sqd qx qy b ≤ sqd qx qy n0 := by
      rw [hb]
      by_cases hc : sqd qx qy yel < sqd qx qy n0
      · rw [if_pos hc]; exact le_of_lt hc
      · rw [if_neg hc]
    have hbyel : sqd qx qy b ≤ sqd qx qy yel := by
      rw [hb]
      by_cases hc : sqd qx qy yel < sqd qx qy n0
      · rw [if_pos hc]
      · rw [if_neg hc]; exact le_of_not_lt hc
    rcases List.mem_cons.mp hx with h1 | h1
    · rw [h1]
      exact le_trans (ih b b (List.mem_cons_self _ _)) hbn0
    · rcases List.mem_cons.mp h1 with h2 | h2
      · rw [h2]
        exact le_trans (ih b b (List.mem_cons_self _ _)) hbyel
      · exact ih b x (List.mem_cons_of_mem _ h2)

theorem sqd_nonneg (qx qy : ℚ) (nd : Nat × ℚ × ℚ) : 0 ≤ sqd qx qy nd := by
  unfold sqd
  positivity

theorem sqd_eq_zero (qx qy : ℚ) (nd : Nat × ℚ × ℚ) (h : sqd qx qy nd = 0) :
    nd.2.1 = qy ∧ nd.2.2 = qx := by
  unfold sqd at h
  have hsq1 : (nd.2.2 - qx) ^ 2 = 0 := by
    nlinarith [sq_nonneg (nd.2.2 - qx), sq_nonneg (nd.2.1 - qy)]
  have hsq2 : (nd.2.1 - qy) ^ 2 = 0 := by
    nlinarith [sq_nonneg (nd.2.2 - qx), sq_nonneg (nd.2.1 - qy)]
  have hz1 : nd.2.2 - qx = 0 := (pow_eq_zero_iff (by norm_num : 2 ≠ 0)).mp hsq1
  have hz2 : nd.2.1 - qy = 0 := (pow_eq_zero_iff (by norm_num : 2 ≠ 0)).mp hsq2
  constructor
  · linarith
  · linarith

/-- Unfolding the nearest-node search on a nonempty node list. -/
theorem nearest_cons (g : RoadGraph) (n0 : Nat × ℚ × ℚ) (rest : List (Nat × ℚ × ℚ))
    (qx qy : ℚ) (hns : g.nodes = n0 :: rest) :
    nearest_nodes g qx qy = .ok (rest.foldl
      (fun best nd => if sqd qx qy nd < sqd qx qy best then nd else best) n0).1 := by
  unfold nearest_nodes
  rw [hns]

theorem nearest_ok_mem (g : RoadGraph) (qx qy : ℚ) (r : Nat)
    (h : nearest_nodes g qx qy = .ok r) : r ∈ nodeIds g := by
  rcases hns : g.nodes with _ | ⟨n0, rest⟩
  · have : nearest_nodes g qx qy = .error .emptyGraph := by
      unfold nearest_nodes
      rw [hns]
    rw [this] at h
    exact absurd h (by simp)
  · rw [nearest_cons g n0 rest qx qy hns] at h
    have hr := Except.ok.inj h
    have hm := foldl_argmin_mem qx qy rest n0
    unfold nodeIds
    rw [hns, ← hr]
    exact List.mem_map.mpr ⟨_, hm, rfl⟩

/-- Self-match of the nearest-node query under pairwise-distinct coordinates. -/
theorem nearest_self (g : RoadGraph)
    (hinj : ∀ m ∈ g.nodes, ∀ n ∈ g.nodes, m.2 = n.2 → m = n)
    (nd : Nat × ℚ × ℚ) (hnd : nd ∈ g.nodes) :
    nearest_nodes g nd.2.2 nd.2.1 = .ok nd.1 := by
  rcases hns : g.nodes with _ | ⟨n0, rest⟩
  · rw [hns] at hnd
    exact absurd hnd (by simp)
  · rw [nearest_cons g n0 rest nd.2.2 nd.2.1 hns]
    set r := rest.foldl
      (fun best nd2 => if sqd nd.2.2 nd.2.1 nd2 < sqd nd.2.2 nd.2.1 best then nd2 else best) n0
      with hrdef
    have hrmem : r ∈ g.nodes := by
      rw [hns]
      exact foldl_argmin_mem nd.2.2 nd.2.1 rest n0
    have hrle : sqd nd.2.2 nd.2.1 r ≤ sqd nd.2.2 nd.2.1 nd := by
      apply foldl_argmin_le nd.2.2 nd.2.1 rest n0 nd
      rw [← hns]
      exact hnd
    have hzero : sqd nd.2.2 nd.2.1 nd = 0 := by
      unfold sqd
      ring
    have hr0 : sqd nd.2.2 nd.2.1 r = 0 :=
      le_antisymm (by rw [← hzero]; exact hrle) (sqd_nonneg _ _ _)
    have hco := sqd_eq_zero nd.2.2 nd.2.1 r hr0
    have hreq : r = nd := by
      apply hinj r hrmem nd hnd
      have : r.2 = (r.2.1, r.2.2) := rfl
      rw [this, hco.1, hco.2]
    rw [hreq]

/-! ## Request handler composition lemmas -/

theorem route_none_left (locB : Option Loc) (G : RoadGraph) :
    route none locB G = .errorPage := rfl

theorem route_none_right (la : Loc) (G : RoadGraph) :
    route (some la) none G = .errorPage := rfl

theorem nearest_empty (G : RoadGraph) (qx qy : ℚ) (h : G.nodes = []) :
    nearest_nodes G qx qy = .error .emptyGraph := by
  unfold nearest_nodes
  rw [h]

theorem route_crash_empty (G : RoadGraph) (la lb : Loc) (h : G.nodes = []) :
    route (some la) (some lb) G = .crash .emptyGraph := by
  simp only [route, nearest_empty G la.x la.y h]

theorem route_crash_noPath (G : RoadGraph) (la lb : Loc) (a b : Nat)
    (hna : nearest_nodes G la.x la.y = .ok a)
    (hnb : nearest_nodes G lb.x lb.y = .ok b)
    (hsp : shortest_path G a b = .error .noPathFound) :
    route (some la) (some lb) G = .crash .noPathFound := by
  simp only [route, hna, hnb, hsp]

/-- No path connects the two isolated nodes of discG. -/
theorem discG_unreachable : ∀ q, ¬ IsPath discG 1 2 q := by
  intro q hq
  rcases q with _ | ⟨u, rest⟩
  · exact IsPath.not_nil discG 1 2 hq
  · rcases rest with _ | ⟨v, rest2⟩
    · rcases IsPath.singleton discG 1 2 u hq with ⟨h1, h2⟩
      exact absurd (h1.symm.trans h2) (by norm_num)
    · rcases hq with ⟨_, _, hchain⟩
      have hsplit : (wmin discG u v).isSome = true ∧ chainOk discG (v :: rest2) = true := by
        simpa [chainOk] using hchain
      have hnone : wmin discG u v = none := rfl
      rw [hnone] at hsplit
      exact absurd hsplit.1 (by simp)

/-! ## Claim theorems -/

/-- C1: for every reachable pair (origin, destination) of graph nodes, under
the data-model invariant of non-negative edge lengths, the search the handler
runs returns a Path; that Path is valid, its total_distance evaluates to the
sum of its edge weights, and that total is less than or equal to the total
distance of every other valid Path between the pair. On the 4-node scenario
graph (A=1, B=2, C=3, D=4), shortest_path(A, C) returns [A, B, C] with total
distance 200. -/
theorem claim_C1_shortest_path_optimal :
    (∀ (g : RoadGraph) (a b : Nat), NonnegW g → a ∈ nodeIds g → b ∈ nodeIds g →
      (∃ q, IsPath g a b q) →
      ∃ p, shortest_path g a b = .ok p ∧ IsPath g a b p ∧
        path_weight g p = .ok (pathCost g p) ∧
        ∀ q, IsPath g a b q → pathCost g p ≤ pathCost g q) ∧
    shortest_path demoG 1 3 = .ok [1, 2, 3] ∧
    path_weight demoG [1, 2, 3] = .ok 200 := by
  refine ⟨?_, ?_, ?_⟩
  · intro g a b hw ha hb hreach
    have hcor := shortest_path_correct g a b hw ha hb
    rcases hcor.2 hreach with ⟨p, hp⟩
    rcases hcor.1 p hp with ⟨hip, hopt⟩
    exact ⟨p, hp, hip, path_weight_eq_pathCost g p hip.2.2, hopt⟩
  · norm_num [shortest_path, astar_path, astarLoop, startFuel, univFS, succList,
      targetsOf, wmin, parWeights, popMin, keyOf, nodeIds, demoG]
  · norm_num [path_weight, wmin, parWeights, demoG, List.filterMap_cons]

/-- Witness for C1: the hypotheses hold on the scenario graph for the pair
(1, 3), and the optimal path exists. -/
theorem claim_C1_witness :
    ∃ p, shortest_path demoG 1 3 = .ok p ∧ IsPath demoG 1 3 p ∧
      path_weight demoG p = .ok (pathCost demoG p) ∧
      ∀ q, IsPath demoG 1 3 q → pathCost demoG p ≤ pathCost demoG q := by
  apply claim_C1_shortest_path_optimal.1 demoG 1 3
  · intro e he
    simp only [demoG] at he
    fin_cases he <;> norm_num
  · decide
  · decide
  · exact ⟨[1, 2, 3], by decide⟩

/-- C2 counterexample: on the two-node edgeless graph the query whose resolved
destination is unreachable ends in a crash carrying the uncaught NoPathFound
error, which is not the clean error page; so the unreachable case is not the
reportable, non-fatal outcome the claim asserts. -/
theorem claim_C2_counterexample :
    route (some ⟨0, 0⟩) (some ⟨10, 10⟩) discG = .crash .noPathFound ∧
    RouteOutcome.crash .noPathFound ≠ .errorPage := by
  refine ⟨?_, by simp⟩
  apply route_crash_noPath discG ⟨0, 0⟩ ⟨10, 10⟩ 1 2
  · norm_num [nearest_nodes, sqd, discG]
  · norm_num [nearest_nodes, sqd, discG]
  · norm_num [shortest_path, astar_path, astarLoop, startFuel, univFS, succList,
      targetsOf, wmin, parWeights, popMin, keyOf, nodeIds, discG]

/-- C2 amended: for every unreachable resolved pair the search itself fails
with NoPathFound, and the handler, which installs no handler around the search
(src/app.py lines 90-96), turns the query into a crash carrying NoPathFound
instead of rendering a clean error page. -/
theorem claim_C2_amended_noPath_crashes :
    ∀ (G : RoadGraph) (la lb : Loc) (a b : Nat), NonnegW G →
      nearest_nodes G la.x la.y = .ok a → nearest_nodes G lb.x lb.y = .ok b →
      (∀ q, ¬ IsPath G a b q) →
      shortest_path G a b = .error .noPathFound ∧
      route (some la) (some lb) G = .crash .noPathFound := by
  intro G la lb a b hw hna hnb hno
  have ha := nearest_ok_mem G la.x la.y a hna
  have hb := nearest_ok_mem G lb.x lb.y b hnb
  have hsp := shortest_path_noPath G a b hw ha hb hno
  exact ⟨hsp, route_crash_noPath G la lb a b hna hnb hsp⟩

/-- Witness for the amended C2 on the two-node edgeless graph. -/
theorem claim_C2_witness :
    shortest_path discG 1 2 = .error .noPathFound ∧
    route (some ⟨0, 0⟩) (some ⟨10, 10⟩) discG = .crash .noPathFound := by
  apply claim_C2_amended_noPath_crashes discG ⟨0, 0⟩ ⟨10, 10⟩ 1 2
  · intro e he
    exact absurd he (by simp [discG])
  · norm_num [nearest_nodes, sqd, discG]
  · norm_num [nearest_nodes, sqd, discG]
  · exact discG_unreachable

/-- C3: on every Path whose consecutive node pairs are all connected by an
edge, total_distance equals the sum over the consecutive pairs of the weight
of the connecting edge, and the weight of every connection the shortest-path
search relaxes is that same weight function. -/
theorem claim_C3_total_distance_sums_weights :
    ∀ (g : RoadGraph) (p : List Nat), chainOk g p = true →
      path_weight g p = .ok (pathCost g p) ∧
      ∀ u v w, (v, w) ∈ succList g u → wval g u v = w := by
  intro g p hchain
  refine ⟨path_weight_eq_pathCost g p hchain, ?_⟩
  intro u v w hm
  exact wval_eq_of_wmin g u v w ((succList_mem g u v w).mp hm)

/-- Witness for C3 on the scenario graph's optimal path. -/
theorem claim_C3_witness :
    path_weight demoG [1, 2, 3] = .ok (pathCost demoG [1, 2, 3]) :=
  (claim_C3_total_distance_sums_weights demoG [1, 2, 3] (by decide)).1

/-- C4 counterexample: hGeoTie is the straight-line distance to tieG's
destination node 4 (certified by its squares against sqd together with its
non-negativity), yet A* guided by that admissible heuristic returns a
different result than the search the handler actually runs (the call with no
heuristic argument, i.e. h = 0): on the tied pair of optimal routes the
heuristic changes the expansion order and hence the returned path, so the
implemented search does not equal A* with the straight-line heuristic. -/
theorem claim_C4_counterexample :
    astar_path tieG 1 4 hGeoTie = .ok [1, 3, 4] ∧
    shortest_path tieG 1 4 = .ok [1, 2, 4] ∧
    astar_path tieG 1 4 hGeoTie ≠ shortest_path tieG 1 4 ∧
    (hGeoTie 1 ^ 2 = sqd 0 8 (1, 0, 0) ∧ hGeoTie 2 ^ 2 = sqd 0 8 (2, 8, 6) ∧
      hGeoTie 3 ^ 2 = sqd 0 8 (3, 4, 0) ∧ hGeoTie 4 ^ 2 = sqd 0 8 (4, 8, 0)) ∧
    (0 ≤ hGeoTie 1 ∧ 0 ≤ hGeoTie 2 ∧ 0 ≤ hGeoTie 3 ∧ 0 ≤ hGeoTie 4) := by
  have h1 : astar_path tieG 1 4 hGeoTie = .ok [1, 3, 4] := by
    norm_num [astar_path, astarLoop, startFuel, univFS, succList,
      targetsOf, wmin, parWeights, popMin, keyOf, nodeIds, tieG, hGeoTie]
  have h2 : shortest_path tieG 1 4 = .ok [1, 2, 4] := by
    norm_num [shortest_path, astar_path, astarLoop, startFuel, univFS, succList,
      targetsOf, wmin, parWeights, popMin, keyOf, nodeIds, tieG]
  refine ⟨h1, h2, ?_, ?_, ?_⟩
  · rw [h1, h2]
    intro hcontra
    exact absurd (Except.ok.inj hcontra) (by decide)
  · norm_num [hGeoTie, sqd]
  · norm_num [hGeoTie]

/-- C4 amended: the implemented search is A* invoked with the library-default
zero heuristic (Dijkstra): the frontier priority g(n) + h(n) degenerates to
g(n); the zero heuristic is admissible under the data model (every remaining
path cost is non-negative), so the search still returns minimum-weight paths,
but it is not guided by the straight-line heuristic the spec describes. -/
theorem claim_C4_amended_zero_heuristic :
    (∀ (g : RoadGraph) (a b : Nat), shortest_path g a b = astar_path g a b (fun _ => 0)) ∧
    (∀ e : Entry, keyOf (fun _ => 0) e = e.1) ∧
    (∀ g : RoadGraph, NonnegW g → ∀ p : List Nat, 0 ≤ pathCost g p) := by
  refine ⟨fun g a b => rfl, fun e => by simp [keyOf], ?_⟩
  intro g hw p
  exact pathCost_nonneg g hw p

/-- Witness for the amended C4 on the tie graph. -/
theorem claim_C4_witness :
    shortest_path tieG 1 4 = astar_path tieG 1 4 (fun _ => 0) ∧
    0 ≤ pathCost tieG [1, 2, 4] := by
  refine ⟨claim_C4_amended_zero_heuristic.1 tieG 1 4, ?_⟩
  apply claim_C4_amended_zero_heuristic.2.2 tieG
  intro e he
  simp only [tieG] at he
  fin_cases he <;> norm_num

/-- C5: for every node v of the graph, shortest_path(v, v) returns the
single-element Path [v], whose total_distance is 0. -/
theorem claim_C5_self_path :
    ∀ (g : RoadGraph) (v : Nat), v ∈ nodeIds g →
      shortest_path g v v = .ok [v] ∧ path_weight g [v] = .ok 0 := by
  intro g v hv
  exact ⟨shortest_path_self g v hv, rfl⟩

/-- Witness for C5 at node 1 of the scenario graph. -/
theorem claim_C5_witness :
    shortest_path demoG 1 1 = .ok [1] ∧ path_weight demoG [1] = .ok 0 :=
  claim_C5_self_path demoG 1 (by decide)

/-- C6: whenever the polyline of a Path is produced, its length is at least
the Path's length, and the output is determined by the stored coordinates of
the Path's nodes alone (so repeated evaluation, or evaluation against any
graph storing the same coordinates, yields the identical output). -/
theorem claim_C6_polyline_length_det :
    ∀ (g : RoadGraph) (p : List Nat) (cs : List (ℚ × ℚ)),
      route_coords g p = some cs →
      p.length ≤ cs.length ∧
      ∀ g2 : RoadGraph, (∀ n ∈ p, nodeCoord g2 n = nodeCoord g n) →
        route_coords g2 p = some cs := by
  intro g p cs hcs
  constructor
  · rw [route_coords_length g p cs hcs]
  · intro g2 hco
    rw [route_coords_congr g g2 p hco, hcs]

/-- Witness for C6 on the scenario graph's optimal path. -/
theorem claim_C6_witness :
    ([1, 2, 3] : List Nat).length ≤
      ([((0 : ℚ), (0 : ℚ)), (0, 1), (1, 1)]).length ∧
    route_coords demoG [1, 2, 3] = some [(0, 0), (0, 1), (1, 1)] := by
  have hev : route_coords demoG [1, 2, 3] = some [(0, 0), (0, 1), (1, 1)] := by
    norm_num [route_coords, nodeCoord, demoG]
  exact ⟨(claim_C6_polyline_length_det demoG [1, 2, 3] _ hev).1, hev⟩

/-- C7 counterexample: dupG's two distinct nodes share the coordinate (5, 5);
querying the index with node 2's own coordinate returns node 1, so exact
self-match fails on a non-empty graph that satisfies the data model. -/
theorem claim_C7_counterexample :
    (2, (5 : ℚ), (5 : ℚ)) ∈ dupG.nodes ∧
    nearest_nodes dupG 5 5 = .ok 1 ∧
    nearest_nodes dupG 5 5 ≠ .ok 2 := by
  have hev : nearest_nodes dupG 5 5 = .ok 1 := by
    norm_num [nearest_nodes, sqd, dupG]
  refine ⟨by norm_num [dupG], hev, ?_⟩
  rw [hev]
  intro hcontra
  exact absurd (Except.ok.inj hcontra) (by decide)

/-- C7 amended: when the node coordinates are pairwise distinct, querying the
index with any node's own coordinate returns that node. -/
theorem claim_C7_amended_nearest_self :
    ∀ (g : RoadGraph) (nd : Nat × ℚ × ℚ),
      (∀ m ∈ g.nodes, ∀ n ∈ g.nodes, m.2 = n.2 → m = n) →
      nd ∈ g.nodes →
      nearest_nodes g nd.2.2 nd.2.1 = .ok nd.1 := by
  intro g nd hinj hnd
  exact nearest_self g hinj nd hnd

/-- Witness for the amended C7 at node 1 of the scenario graph. -/
theorem claim_C7_witness :
    nearest_nodes demoG 0 0 = .ok 1 := by
  have happ := claim_C7_amended_nearest_self demoG (1, 0, 0) ?_ ?_
  · exact happ
  · intro m hm n hn hmn
    simp only [demoG] at hm hn
    fin_cases hm <;> fin_cases hn <;>
      first
        | rfl
        | (exfalso; norm_num [Prod.ext_iff] at hmn)
  · norm_num [demoG]

/-- C8: whenever the loaded graph has zero nodes, the nearest-node operation
fails with the distinct EmptyGraph error, and hence the whole query fails with
EmptyGraph (uncaught, as the handler installs no handler) and no other
outcome. -/
theorem claim_C8_empty_graph :
    ∀ (G : RoadGraph) (la lb : Loc) (qx qy : ℚ), G.nodes = [] →
      nearest_nodes G qx qy = .error .emptyGraph ∧
      route (some la) (some lb) G = .crash .emptyGraph := by
  intro G la lb qx qy h
  exact ⟨nearest_empty G qx qy h, route_crash_empty G la lb h⟩

/-- Witness for C8 on the empty graph. -/
theorem claim_C8_witness :
    nearest_nodes emptyG 0 0 = .error .emptyGraph ∧
    route (some ⟨0, 0⟩) (some ⟨1, 1⟩) emptyG = .crash .emptyGraph :=
  claim_C8_empty_graph emptyG ⟨0, 0⟩ ⟨1, 1⟩ 0 0 rfl

/-- C9: if geocoding of either input yields no result, the handler renders the
error page and attempts no routing: the outcome is independent of the road
graph entirely. -/
theorem claim_C9_geocode_failure :
    ∀ (locA locB : Option Loc) (G G2 : RoadGraph),
      locA = none ∨ locB = none →
      route locA locB G = .errorPage ∧ route locA locB G = route locA locB G2 := by
  intro locA locB G G2 h
  rcases h with rfl | rfl
  · exact ⟨route_none_left locB G,
      (route_none_left locB G).trans (route_none_left locB G2).symm⟩
  · cases locA with
    | none =>
      exact ⟨route_none_left none G,
        (route_none_left none G).trans (route_none_left none G2).symm⟩
    | some la =>
      exact ⟨route_none_right la G,
        (route_none_right la G).trans (route_none_right la G2).symm⟩

/-- Witness for C9: a failed first geocode renders the error page on any
graph. -/
theorem claim_C9_witness :
    route none (some ⟨3, 101⟩) demoG = .errorPage ∧
    route none (some ⟨3, 101⟩) demoG = route none (some ⟨3, 101⟩) tieG :=
  claim_C9_geocode_failure none (some ⟨3, 101⟩) demoG tieG (Or.inl rfl)

/-- C10: the produced polyline has exactly one coordinate per node of the
Path, in path order, each being the stored (y, x) attribute pair of that node
(edge geometry never appears), so its length equals the Path's length
exactly. -/
theorem claim_C10_polyline_exact :
    ∀ (g : RoadGraph) (p : List Nat) (cs : List (ℚ × ℚ)),
      route_coords g p = some cs →
      cs.length = p.length ∧
      List.Forall₂ (fun n cval => nodeCoord g n = some cval) p cs := by
  intro g p cs hcs
  exact ⟨route_coords_length g p cs hcs, route_coords_forall2 g p cs hcs⟩

/-- Witness for C10 on the scenario graph's optimal path. -/
theorem claim_C10_witness :
    ([((0 : ℚ), (0 : ℚ)), (0, 1), (1, 1)]).length = ([1, 2, 3] : List Nat).length ∧
    List.Forall₂ (fun n cval => nodeCoord demoG n = some cval) [1, 2, 3]
      [((0 : ℚ), (0 : ℚ)), (0, 1), (1, 1)] := by
  apply claim_C10_polyline_exact demoG [1, 2, 3]
  norm_num [route_coords, nodeCoord, demoG]

end RouteApp
